import Mathlib

/-!
Shallow embedding of the AST and evaluation core of kati (src/ast.h).

The enum types, the six directive-node variants with their fields, and the
node-level operations (loc, orig, set_loc, the const Eval entry point) are
taken directly from src/ast.h.  The bodies of the Eval methods and the
Evaluator state live in implementation files that are not part of src/, so
the evaluation semantics below are modelled from the specification; each
such definition says so in its doc comment.
-/

namespace Kati

/-- Source location attached to every AST node.  src/ast.h stores a Loc
(declared in loc.h, whose definition is outside src/): a file name and a
line number. -/
structure Loc where
  filename : String
  lineno : Nat
deriving Repr, DecidableEq

/-- Assignment operators, from enum AssignOp in src/ast.h. -/
inductive AssignOp where
  | EQ
  | COLON_EQ
  | PLUS_EQ
  | QUESTION_EQ
deriving Repr, DecidableEq

/-- Assignment directives, from enum AssignDirective in src/ast.h. -/
inductive AssignDirective where
  | NONE
  | OVERRIDE
  | EXPORT
deriving Repr, DecidableEq

/-- Conditional operators, from enum CondOp in src/ast.h. -/
inductive CondOp where
  | IFEQ
  | IFNEQ
  | IFDEF
  | IFNDEF
deriving Repr, DecidableEq

/-- Modelled from the spec: the Expression Model (the "Value" type is only
forward-declared in src/ast.h; its definition is outside src/).  A tree of
fragments: literal text, a variable reference whose name is itself an
expression (computed variable names), concatenation of fragments, and a
function invocation carrying the function name and its argument
expressions.  The functions themselves live in the external
function-library collaborator, which expansion consults by name. -/
inductive Value where
  | lit : String → Value
  | ref : Value → Value
  | cat : Value → Value → Value
  | func : String → List Value → Value
deriving Repr

/-- Modelled from the spec: the evaluation-time error kinds (error handling
design); the error machinery is outside src/. -/
inductive EvalError where
  | recursiveExpansion
  | conflictingRuleType
  | danglingRecipe
  | circularInclude
  | missingInclude
  | undefinedFunction
  | malformedConditional
deriving Repr, DecidableEq

/-- Modelled from the spec: the origin (provenance) tag of a variable
binding. -/
inductive Origin where
  | commandLine
  | environment
  | file
  | override
  | automatic
deriving Repr, DecidableEq

/-- Modelled from the spec: the stored value of a binding, either a
pre-expanded literal (immediate storage, the `:=` mode) or a stored
expression re-expanded on every reference (deferred storage, the `=`
mode). -/
inductive VarValue where
  | immediate : String → VarValue
  | deferred : Value → VarValue
deriving Repr

/-- Modelled from the spec: a binding record of the Variable Table: the
stored value together with its origin flag.  Export-set membership is kept
in the Evaluator's export set (the binding's export flag is the name's
membership there). -/
structure Binding where
  value : VarValue
  origin : Origin
deriving Repr

/-- The Variable Table: a finite association from variable name to binding,
first entry wins. -/
abbrev VarTable := List (String × Binding)

/-- Modelled from the spec: the function-library collaborator: a finite
table from function name to its text-level implementation, applied to the
expanded argument texts.  Expansion of an invocation of a name not in the
library is the evaluation-time UndefinedFunctionError. -/
abbrev FuncLib := List (String × (List String → String))

/-- First-match lookup in an association list keyed by strings. -/
def lookupKey {α : Type} : List (String × α) → String → Option α
  | [], _ => Option.none
  | (m, v) :: rest, n => if m = n then some v else lookupKey rest n

/-- The keys of an association list. -/
def keysOf {α : Type} (l : List (String × α)) : List String := l.map Prod.fst

/-- Write a binding for a name: replace the first existing entry, or append
a fresh one. -/
def setVar : VarTable → String → Binding → VarTable
  | [], n, b => [(n, b)]
  | (m, b') :: rest, n, b =>
    if m = n then (n, b) :: rest else (m, b') :: setVar rest n b

theorem lookupKey_mem_keys {α : Type} :
    ∀ (l : List (String × α)) (n : String) (v : α),
      lookupKey l n = some v → n ∈ keysOf l
  | [], n, v, h => by simp [lookupKey] at h
  | (m, w) :: rest, n, v, h => by
    by_cases hm : m = n
    · subst hm; exact List.mem_cons_self _ _
    · simp only [lookupKey, hm, if_false] at h
      exact List.mem_cons_of_mem _ (lookupKey_mem_keys rest n v h)

/-- Number of keys not yet marked in-progress: the termination measure for
expansion and for recursive include evaluation. -/
def freeCount (keys ip : List String) : Nat :=
  (keys.filter (fun x => decide (¬ x ∈ ip))).length

theorem filter_length_le {α : Type} {p q : α → Bool}
    (h : ∀ x, q x = true → p x = true) :
    ∀ l : List α, (l.filter q).length ≤ (l.filter p).length
  | [] => Nat.le_refl 0
  | x :: l => by
    by_cases hq : q x = true
    · simp [List.filter, hq, h x hq]
      exact filter_length_le h l
    · have hq' : q x = false := by revert hq; cases q x <;> simp
      simp only [List.filter, hq']
      cases hp : p x
      · exact filter_length_le h l
      · exact Nat.le_succ_of_le (filter_length_le h l)

theorem filter_length_lt {α : Type} {p q : α → Bool}
    (h : ∀ x, q x = true → p x = true) {n : α}
    (hq : q n = false) (hp : p n = true) :
    ∀ {l : List α}, n ∈ l → (l.filter q).length < (l.filter p).length := by
  intro l hn
  induction l with
  | nil => cases hn
  | cons x l ih =>
    rcases List.mem_cons.mp hn with hx | hx
    · subst hx
      simp only [List.filter, hq, hp]
      exact Nat.lt_succ_of_le (filter_length_le h l)
    · by_cases hqx : q x = true
      · simp [List.filter, hqx, h x hqx]
        exact ih hx
      · have hq' : q x = false := by revert hqx; cases q x <;> simp
        simp only [List.filter, hq']
        cases hpx : p x
        · exact ih hx
        · exact Nat.lt_succ_of_lt (ih hx)

theorem freeCount_lt {keys ip : List String} {n : String}
    (hk : n ∈ keys) (hn : ¬ n ∈ ip) :
    freeCount keys (n :: ip) < freeCount keys ip := by
  refine filter_length_lt (p := fun x => decide (¬ x ∈ ip))
    (q := fun x => decide (¬ x ∈ n :: ip)) ?_ ?_ ?_ hk
  · intro x hx
    simp only [decide_eq_true_eq] at hx ⊢
    intro hmem; exact hx (List.mem_cons_of_mem _ hmem)
  · simp
  · simpa using hn

mutual

/-- Modelled from the spec: expansion of an expression against the variable
table and the function library (the Expression Model contract; the
implementation is outside src/).  The in-progress list ip is the "currently
expanding" marker set: a deferred variable that is referenced again while
its own expansion is still active fails with RecursiveExpansionError.  A
reference to an unknown variable expands to the empty string; an immediate
binding yields its cached text without re-expansion; a deferred binding is
re-expanded against the current table.  A function invocation expands its
argument expressions and applies the library implementation of its name;
an unknown function name fails with UndefinedFunctionError. -/
def expand (flib : FuncLib) (vt : VarTable) :
    List String → Value → Except EvalError String
  | _, .lit s => .ok s
  | ip, .ref nameE =>
    match expand flib vt ip nameE with
    | .error e => .error e
    | .ok n =>
      if hmem : n ∈ ip then .error .recursiveExpansion
      else
        match hl : lookupKey vt n with
        | Option.none => .ok ""
        | some b =>
          match b.value with
          | .immediate s => .ok s
          | .deferred e => expand flib vt (n :: ip) e
  | ip, .cat a b =>
    match expand flib vt ip a with
    | .error e => .error e
    | .ok sa =>
      match expand flib vt ip b with
      | .error e => .error e
      | .ok sb => .ok (sa ++ sb)
  | ip, .func f args =>
    match expandArgs flib vt ip args with
    | .error e => .error e
    | .ok xs =>
      match lookupKey flib f with
      | Option.none => .error .undefinedFunction
      | some impl => .ok (impl xs)
termination_by ip v => (freeCount (keysOf vt) ip, sizeOf v)
decreasing_by
  all_goals simp_wf
  all_goals
    first
      | exact Prod.Lex.left _ _ (freeCount_lt (lookupKey_mem_keys vt n b hl) hmem)
      | (apply Prod.Lex.right; simp_arith)

/-- Modelled from the spec: expansion of a function invocation's argument
expressions, in order; the first failure aborts the invocation. -/
def expandArgs (flib : FuncLib) (vt : VarTable) :
    List String → List Value → Except EvalError (List String)
  | _, [] => .ok []
  | ip, a :: rest =>
    match expand flib vt ip a with
    | .error e => .error e
    | .ok s =>
      match expandArgs flib vt ip rest with
      | .error e => .error e
      | .ok xs => .ok (s :: xs)
termination_by ip args => (freeCount (keysOf vt) ip, sizeOf args)
decreasing_by
  all_goals simp_wf
  all_goals
    first
      | (apply Prod.Lex.right; simp_arith)

end

/-- Accumulating worker for splitWS: walks the character list, gathering
the current word in acc (reversed). -/
def splitWSAux : List Char → List Char → List String
  | [], acc => if acc = [] then [] else [String.mk acc.reverse]
  | c :: cs, acc =>
    if c.isWhitespace then
      (if acc = [] then [] else [String.mk acc.reverse]) ++ splitWSAux cs []
    else splitWSAux cs (c :: acc)

/-- Splits expanded text into whitespace-separated words (target lists,
prerequisite lists, include paths, export name lists). -/
def splitWS (s : String) : List String := splitWSAux s.toList []

/-- Directive nodes, from src/ast.h: the six concrete AST variants.  Every
node carries the base-class fields loc_ and orig_ (source location and the
original source text, both for diagnostics).  The payload of RuleAST is
given in the spec's reading: a target expression, the single- vs
double-colon separator, and a prerequisite expression; IfAST carries its
two branch bodies as node sequences, as in src/ast.h. -/
inductive AST where
  | RuleAST (loc : Loc) (orig : String)
      (targets : Value) (isDoubleColon : Bool) (prereqs : Value)
  | AssignAST (loc : Loc) (orig : String)
      (lhs rhs : Value) (op : AssignOp) (directive : AssignDirective)
  | CommandAST (loc : Loc) (orig : String) (expr : Value)
  | IfAST (loc : Loc) (orig : String)
      (op : CondOp) (lhs rhs : Value) (true_stmts false_stmts : List AST)
  | IncludeAST (loc : Loc) (orig : String) (expr : Value) (should_exist : Bool)
  | ExportAST (loc : Loc) (orig : String) (expr : Value) (is_export : Bool)
deriving Repr

/-- From src/ast.h: the loc() accessor of the AST base class. -/
def AST.loc : AST → Loc
  | .RuleAST l _ _ _ _ => l
  | .AssignAST l _ _ _ _ _ => l
  | .CommandAST l _ _ => l
  | .IfAST l _ _ _ _ _ _ => l
  | .IncludeAST l _ _ _ => l
  | .ExportAST l _ _ _ => l

/-- From src/ast.h: the orig() accessor of the AST base class. -/
def AST.orig : AST → String
  | .RuleAST _ o _ _ _ => o
  | .AssignAST _ o _ _ _ _ => o
  | .CommandAST _ o _ => o
  | .IfAST _ o _ _ _ _ _ => o
  | .IncludeAST _ o _ _ => o
  | .ExportAST _ o _ _ => o

/-- From src/ast.h: AST::set_loc(Loc), the public setter that stores a new
source location into an already-constructed node (loc_ = loc). -/
def AST.set_loc : AST → Loc → AST
  | .RuleAST _ o t d p, l => .RuleAST l o t d p
  | .AssignAST _ o a b op dir, l => .AssignAST l o a b op dir
  | .CommandAST _ o e, l => .CommandAST l o e
  | .IfAST _ o op a b ts es, l => .IfAST l o op a b ts es
  | .IncludeAST _ o e r, l => .IncludeAST l o e r
  | .ExportAST _ o e x, l => .ExportAST l o e x

/-- Modelled from the spec: one rule body of the Rule Registry: a target,
whether it came from a double-colon rule, its prerequisite list, and its
recipe (command expression) lines. -/
structure RuleBody where
  target : String
  isDoubleColon : Bool
  prereqs : List String
  commands : List Value
deriving Repr

/-- Modelled from the spec: the Evaluator-owned mutable state: the Variable
Table, the Rule Registry (an ordered list of rule bodies), the current
recipe accumulator (an index into the registry that Command nodes attach
to), and the export set.  The Include Stack is transient per-call state and
is threaded as an explicit argument of evaluation. -/
structure Evaluator where
  vars : VarTable
  rules : List RuleBody
  currentRule : Option Nat
  exports : List String
deriving Repr

/-- Modelled from the spec: the file-loading collaborator, as a finite table
from path to that file's parsed directive-node sequence. -/
abbrev FileSystem := List (String × List AST)

/-- Index of the first rule body for a target, if any. -/
def findTargetIdx : List RuleBody → String → Option Nat
  | [], _ => Option.none
  | b :: rest, t =>
    if b.target = t then some 0 else (findTargetIdx rest t).map Nat.succ

/-- Replace the element at an index by applying f (out-of-range: no-op). -/
def modifyAt {α : Type} : List α → Nat → (α → α) → List α
  | [], _, _ => []
  | x :: rest, 0, f => f x :: rest
  | x :: rest, Nat.succ i, f => x :: modifyAt rest i f

/-- True when the registry already holds a body for this target whose
colon kind differs from the incoming rule's. -/
def conflicting (rules : List RuleBody) (t : String) (dc : Bool) : Bool :=
  rules.any (fun b => b.target = t && b.isDoubleColon != dc)

/-- Insert a name into the export set if not already present. -/
def insertName (n : String) (l : List String) : List String :=
  if n ∈ l then l else n :: l

/-- Remove a name from the export set. -/
def removeName (n : String) (l : List String) : List String :=
  l.filter (fun m => m ≠ n)

/-- Modelled from the spec: registering one target of a Rule directive.
Mixing single- and double-colon bodies for one target is a
ConflictingRuleTypeError.  A double-colon rule appends a brand-new
independent body; a single-colon rule merges into the target's existing
body (appending prerequisites, duplicates kept in order), or creates one;
either way the touched body becomes the current recipe accumulator. -/
def addRuleTarget (ev : Evaluator) (t : String) (dc : Bool) (ps : List String) :
    Except EvalError Evaluator :=
  if conflicting ev.rules t dc then .error .conflictingRuleType
  else if dc then
    .ok { ev with rules := ev.rules ++ [⟨t, true, ps, []⟩]
                  currentRule := some ev.rules.length }
  else
    match findTargetIdx ev.rules t with
    | Option.none =>
      .ok { ev with rules := ev.rules ++ [⟨t, false, ps, []⟩]
                    currentRule := some ev.rules.length }
    | some i =>
      .ok { ev with
            rules := modifyAt ev.rules i
              (fun b => { b with prereqs := b.prereqs ++ ps })
            currentRule := some i }

/-- Modelled from the spec: a Rule directive registers every expanded
target name in order. -/
def addRuleTargets : Evaluator → List String → Bool → List String →
    Except EvalError Evaluator
  | ev, [], _, _ => .ok ev
  | ev, t :: ts, dc, ps =>
    match addRuleTarget ev t dc ps with
    | .error e => .error e
    | .ok ev' => addRuleTargets ev' ts dc ps

/-- Modelled from the spec: RuleAST::Eval.  Target and prerequisite
expressions are expanded once, at the point the rule statement is reached,
then each target is registered. -/
def evalRule (flib : FuncLib) (ev : Evaluator) (targets : Value) (dc : Bool)
    (prereqs : Value) : Except EvalError Evaluator :=
  match expand flib ev.vars [] targets with
  | .error e => .error e
  | .ok ts =>
    match expand flib ev.vars [] prereqs with
    | .error e => .error e
    | .ok ps => addRuleTargets ev (splitWS ts) dc (splitWS ps)

/-- Modelled from the spec: the storage-mode dispatch of an assignment that
has passed the resolution checks.  = stores the rhs unexpanded (deferred);
:= expands the rhs immediately against the current table and stores the
literal result; += appends preserving the existing binding's storage mode
(or behaves like = when there is no binding); ?= behaves like = when there
is no binding and is a no-op otherwise, except that the override directive
(uncond) makes the write unconditional. -/
def doAssign (flib : FuncLib) (ev : Evaluator) (n : String) (rhs : Value)
    (op : AssignOp) (origin : Origin) (uncond : Bool) :
    Except EvalError Evaluator :=
  match op with
  | .EQ => .ok { ev with vars := setVar ev.vars n ⟨.deferred rhs, origin⟩ }
  | .COLON_EQ =>
    match expand flib ev.vars [] rhs with
    | .error e => .error e
    | .ok s => .ok { ev with vars := setVar ev.vars n ⟨.immediate s, origin⟩ }
  | .PLUS_EQ =>
    match lookupKey ev.vars n with
    | Option.none =>
      .ok { ev with vars := setVar ev.vars n ⟨.deferred rhs, origin⟩ }
    | some b =>
      match b.value with
      | .immediate s =>
        match expand flib ev.vars [] rhs with
        | .error e => .error e
        | .ok s2 =>
          .ok { ev with
                vars := setVar ev.vars n ⟨.immediate (s ++ " " ++ s2), origin⟩ }
      | .deferred e0 =>
        .ok { ev with
              vars := setVar ev.vars n
                ⟨.deferred (.cat e0 (.cat (.lit " ") rhs)), origin⟩ }
  | .QUESTION_EQ =>
    if uncond then
      .ok { ev with vars := setVar ev.vars n ⟨.deferred rhs, origin⟩ }
    else
      match lookupKey ev.vars n with
      | Option.none =>
        .ok { ev with vars := setVar ev.vars n ⟨.deferred rhs, origin⟩ }
      | some _ => .ok ev

/-- Modelled from the spec: AssignAST::Eval.  The lhs is expanded to the
variable name; then, in order: an override assignment writes
unconditionally; a non-override assignment over a command-line-origin
binding is a no-op; otherwise the op dispatch runs.  An export-directive
assignment additionally puts the name into the export set regardless of
which branch fired. -/
def evalAssign (flib : FuncLib) (ev : Evaluator) (lhs rhs : Value)
    (op : AssignOp) (d : AssignDirective) : Except EvalError Evaluator :=
  match expand flib ev.vars [] lhs with
  | .error e => .error e
  | .ok n =>
    let origin := if d = .OVERRIDE then Origin.override else Origin.file
    let res :=
      if d = .OVERRIDE then doAssign flib ev n rhs op origin true
      else
        match lookupKey ev.vars n with
        | some b =>
          if b.origin = .commandLine then .ok ev
          else doAssign flib ev n rhs op origin false
        | Option.none => doAssign flib ev n rhs op origin false
    match res with
    | .error e => .error e
    | .ok ev' =>
      .ok (if d = .EXPORT then { ev' with exports := insertName n ev'.exports }
           else ev')

/-- Modelled from the spec: CommandAST::Eval.  The recipe expression is
appended, unexpanded, to the current recipe accumulator; with no current
rule body this is a DanglingRecipeError. -/
def evalCommand (ev : Evaluator) (e : Value) : Except EvalError Evaluator :=
  match ev.currentRule with
  | Option.none => .error .danglingRecipe
  | some i =>
    .ok { ev with
          rules := modifyAt ev.rules i
            (fun b => { b with commands := b.commands ++ [e] }) }

/-- Modelled from the spec: the condition of IfAST::Eval.  ifeq/ifneq
expand both sides immediately and compare as text; ifdef/ifndef expand the
lhs to a variable name and test non-emptiness of that variable's expansion
against the table. -/
def evalCond (flib : FuncLib) (ev : Evaluator) (op : CondOp) (lhs rhs : Value) :
    Except EvalError Bool :=
  match op with
  | .IFEQ =>
    match expand flib ev.vars [] lhs with
    | .error e => .error e
    | .ok l =>
      match expand flib ev.vars [] rhs with
      | .error e => .error e
      | .ok r => .ok (l = r)
  | .IFNEQ =>
    match expand flib ev.vars [] lhs with
    | .error e => .error e
    | .ok l =>
      match expand flib ev.vars [] rhs with
      | .error e => .error e
      | .ok r => .ok (¬ l = r)
  | .IFDEF =>
    match expand flib ev.vars [] lhs with
    | .error e => .error e
    | .ok n =>
      match expand flib ev.vars [] (.ref (.lit n)) with
      | .error e => .error e
      | .ok s => .ok (¬ s = "")
  | .IFNDEF =>
    match expand flib ev.vars [] lhs with
    | .error e => .error e
    | .ok n =>
      match expand flib ev.vars [] (.ref (.lit n)) with
      | .error e => .error e
      | .ok s => .ok (s = "")

/-- Set or clear one name's export flag. -/
def setExportFlag (exports : List String) (n : String) (enable : Bool) :
    List String :=
  if enable then insertName n exports else removeName n exports

/-- Modelled from the spec: ExportAST::Eval.  The expression is expanded;
a non-empty name list flips exactly those names' export flags per enable,
while an empty (or whitespace-only) expansion applies enable to every
variable currently in the Variable Table. -/
def evalExport (flib : FuncLib) (ev : Evaluator) (e : Value) (enable : Bool) :
    Except EvalError Evaluator :=
  match expand flib ev.vars [] e with
  | .error er => .error er
  | .ok s =>
    let names := splitWS s
    if names = [] then
      .ok { ev with
            exports := (keysOf ev.vars).foldl
              (fun ex n => setExportFlag ex n enable) ev.exports }
    else
      .ok { ev with
            exports := names.foldl
              (fun ex n => setExportFlag ex n enable) ev.exports }

mutual

/-- Modelled from the spec: evaluation of one directive node against the
Evaluator state (the virtual const Eval entry point declared per variant
in src/ast.h; the method bodies are outside src/).  fsys is the
file-loading collaborator; ip is the transient Include Stack of
in-progress file paths. -/
def evalStmt (flib : FuncLib) (fsys : FileSystem) (ip : List String)
    (ev : Evaluator) : AST → Except EvalError Evaluator
  | .RuleAST _ _ targets dc prereqs => evalRule flib ev targets dc prereqs
  | .AssignAST _ _ lhs rhs op d => evalAssign flib ev lhs rhs op d
  | .CommandAST _ _ e => evalCommand ev e
  | .IfAST _ _ op lhs rhs ts es =>
    match evalCond flib ev op lhs rhs with
    | .error e => .error e
    | .ok true => evalStmts flib fsys ip ev ts
    | .ok false => evalStmts flib fsys ip ev es
  | .IncludeAST _ _ e req =>
    match expand flib ev.vars [] e with
    | .error er => .error er
    | .ok s => evalPaths flib fsys ip ev (splitWS s) req
  | .ExportAST _ _ e en => evalExport flib ev e en
termination_by s => (freeCount (keysOf fsys) ip, sizeOf s, 0)
decreasing_by
  all_goals simp_wf
  all_goals
    first
      | (apply Prod.Lex.right; apply Prod.Lex.left; simp_arith)

/-- Modelled from the spec: evaluation of a directive-node sequence in
textual order; a fatal error stops the pass. -/
def evalStmts (flib : FuncLib) (fsys : FileSystem) (ip : List String)
    (ev : Evaluator) : List AST → Except EvalError Evaluator
  | [] => .ok ev
  | s :: rest =>
    match evalStmt flib fsys ip ev s with
    | .error e => .error e
    | .ok ev' => evalStmts flib fsys ip ev' rest
termination_by l => (freeCount (keysOf fsys) ip, sizeOf l, 0)
decreasing_by
  all_goals simp_wf
  all_goals
    first
      | (apply Prod.Lex.right; apply Prod.Lex.left; simp_arith)

/-- Modelled from the spec: IncludeAST::Eval over the expanded path list.
A path already on the Include Stack is a CircularIncludeError; a missing
path is fatal iff should_exist is true and is silently skipped otherwise;
an existing file's node sequence is evaluated in full with the path pushed
onto the stack, and the stack entry is popped before the next sibling
path. -/
def evalPaths (flib : FuncLib) (fsys : FileSystem) (ip : List String)
    (ev : Evaluator) : List String → Bool → Except EvalError Evaluator
  | [], _ => .ok ev
  | p :: rest, req =>
    if hmem : p ∈ ip then .error .circularInclude
    else
      match hf : lookupKey fsys p with
      | Option.none =>
        if req then .error .missingInclude
        else evalPaths flib fsys ip ev rest req
      | some body =>
        match evalStmts flib fsys (p :: ip) ev body with
        | .error e => .error e
        | .ok ev' => evalPaths flib fsys ip ev' rest req
termination_by ps req => (freeCount (keysOf fsys) ip, 0, ps.length)
decreasing_by
  all_goals simp_wf
  all_goals
    first
      | exact Prod.Lex.left _ _
          (freeCount_lt (lookupKey_mem_keys fsys p body hf) hmem)
      | (apply Prod.Lex.right; apply Prod.Lex.right; simp_arith)

end

/-! ## Theorems -/

/-- An evaluator with empty state, used for concrete instantiations. -/
def emptyEval : Evaluator :=
  { vars := [], rules := [], currentRule := Option.none, exports := [] }

/-- C1: for every Conditional directive whose condition evaluates to b, the
node evaluates exactly as the taken branch's node sequence, and equals the
evaluation of the same Conditional with the non-taken branch's nodes
removed: the non-taken branch's Assign/Rule/Include/Command nodes leave no
trace in the resulting evaluator state (variable table, rule registry,
export set) or in the include handling. -/
theorem if_nontaken_branch_no_effect (flib : FuncLib) (fsys : FileSystem)
    (ip : List String) (ev : Evaluator) (loc : Loc) (orig : String)
    (op : CondOp) (lhs rhs : Value) (ts es : List AST) (b : Bool)
    (h : evalCond flib ev op lhs rhs = .ok b) :
    evalStmt flib fsys ip ev (.IfAST loc orig op lhs rhs ts es)
      = evalStmts flib fsys ip ev (if b then ts else es)
    ∧ evalStmt flib fsys ip ev (.IfAST loc orig op lhs rhs ts es)
      = evalStmt flib fsys ip ev
          (.IfAST loc orig op lhs rhs (if b then ts else [])
            (if b then [] else es)) := by
  constructor
  · simp only [evalStmt, h]
    cases b <;> simp
  · simp only [evalStmt, h]
    cases b <;> simp

/-- C1 witness: with an ifeq whose sides expand to the distinct texts "a"
and "b", evaluating the Conditional is the same as evaluating only the
false branch, whose assignment stores VAR = "2". -/
theorem if_nontaken_branch_no_effect_witness :
    evalStmt [] [] [] emptyEval
      (.IfAST ⟨"f", 1⟩ "" .IFEQ (.lit "a") (.lit "b")
        [.AssignAST ⟨"f", 2⟩ "" (.lit "VAR") (.lit "1") .COLON_EQ .NONE]
        [.AssignAST ⟨"f", 3⟩ "" (.lit "VAR") (.lit "2") .COLON_EQ .NONE])
      = evalStmts [] [] [] emptyEval
          [.AssignAST ⟨"f", 3⟩ "" (.lit "VAR") (.lit "2") .COLON_EQ .NONE]
    ∧ evalStmts [] [] [] emptyEval
        [.AssignAST ⟨"f", 3⟩ "" (.lit "VAR") (.lit "2") .COLON_EQ .NONE]
      = .ok { emptyEval with vars := [("VAR", ⟨.immediate "2", .file⟩)] } := by
  constructor
  · have h := (if_nontaken_branch_no_effect [] [] [] emptyEval ⟨"f", 1⟩ ""
      .IFEQ (.lit "a") (.lit "b")
      [.AssignAST ⟨"f", 2⟩ "" (.lit "VAR") (.lit "1") .COLON_EQ .NONE]
      [.AssignAST ⟨"f", 3⟩ "" (.lit "VAR") (.lit "2") .COLON_EQ .NONE]
      false (by simp [evalCond, expand, emptyEval])).1
    simpa using h
  · simp [evalStmts, evalStmt, evalAssign, doAssign, expand, lookupKey,
      emptyEval, setVar]

/-- C9 counterexample: src/ast.h declares the public mutator
AST::set_loc(Loc), and applying it to an already-constructed node with a
new location yields a node that differs from the original, so a node's
source location is mutable after construction. -/
theorem set_loc_mutates_a_constructed_node :
    AST.set_loc (.CommandAST ⟨"Makefile", 1⟩ "touch" (.lit "x")) ⟨"Makefile", 2⟩
      ≠ .CommandAST ⟨"Makefile", 1⟩ "touch" (.lit "x") := by
  intro h
  have h2 := congrArg AST.loc h
  simp [AST.set_loc, AST.loc] at h2

/-- C9 (amended): Directive Nodes are immutable after construction except
for the source location, which the set_loc operation of src/ast.h may
rewrite: set_loc changes only the loc field (the original text is
preserved, and re-setting the location erases any difference it made), and
evaluation, whose entry point is const, leaves the node unchanged and is
unaffected by the stored location. -/
theorem set_loc_changes_only_loc (a : AST) (l : Loc) :
    (a.set_loc l).loc = l
    ∧ (a.set_loc l).orig = a.orig
    ∧ (∀ l', (a.set_loc l).set_loc l' = a.set_loc l')
    ∧ (∀ flib fsys ip ev,
        evalStmt flib fsys ip ev (a.set_loc l) = evalStmt flib fsys ip ev a) := by
  refine ⟨?_, ?_, ?_, ?_⟩
  · cases a <;> rfl
  · cases a <;> rfl
  · intro l'; cases a <;> rfl
  · intro flib fsys ip ev
    cases a <;> simp only [AST.set_loc, evalStmt]

/-- C10: Eval is const on the node: every observable effect of evaluation
flows through the Evaluator value, so evaluating one node sequence from
equal evaluator states (with the same function library, file system and
include stack) yields equal outcomes, and evaluation does not depend on
the node's mutable loc field. -/
theorem eval_effects_only_through_evaluator :
    (∀ (flib : FuncLib) (fsys : FileSystem) (ip : List String)
        (ss : List AST) (ev ev' : Evaluator), ev = ev' →
        evalStmts flib fsys ip ev ss = evalStmts flib fsys ip ev' ss)
    ∧ (∀ (flib : FuncLib) (fsys : FileSystem) (ip : List String)
        (ev : Evaluator) (a : AST) (l : Loc),
        evalStmt flib fsys ip ev (a.set_loc l) = evalStmt flib fsys ip ev a) := by
  constructor
  · intro flib fsys ip ss ev ev' h
    rw [h]
  · intro flib fsys ip ev a l
    cases a <;> simp only [AST.set_loc, evalStmt]

/-- C10 witness: the determinism part applied to a concrete sequence from
two (equal) empty states. -/
theorem eval_effects_only_through_evaluator_witness :
    evalStmts [] [] [] emptyEval
        [.AssignAST ⟨"f", 1⟩ "" (.lit "X") (.lit "1") .EQ .NONE]
      = evalStmts [] [] [] ⟨[], [], Option.none, []⟩
          [.AssignAST ⟨"f", 1⟩ "" (.lit "X") (.lit "1") .EQ .NONE] :=
  eval_effects_only_through_evaluator.1 [] [] []
    [.AssignAST ⟨"f", 1⟩ "" (.lit "X") (.lit "1") .EQ .NONE]
    emptyEval _ rfl

/-- C5: an Include whose first expanded path is already on the Include
Stack (self-inclusion, direct or transitive: the stack holds every
in-progress file) fails with CircularIncludeError rather than recursing;
evaluation of an Include is a total function of its input (the definition
of evalStmt/evalPaths is terminating by construction), so it always
terminates. -/
theorem include_on_stack_circular (flib : FuncLib) (fsys : FileSystem)
    (ip : List String) (ev : Evaluator) (loc : Loc) (orig : String)
    (e : Value) (req : Bool) (p : String) (rest : List String) (s : String)
    (h1 : expand flib ev.vars [] e = .ok s) (h2 : splitWS s = p :: rest)
    (h3 : p ∈ ip) :
    evalStmt flib fsys ip ev (.IncludeAST loc orig e req)
      = .error .circularInclude := by
  simp only [evalStmt, h1, h2, evalPaths]
  simp [h3]

/-- C5 witness: a file a.mk that includes itself: with a.mk in progress on
the include stack, evaluating the include directive of a.mk fails with a
CircularIncludeError (and so the top-level evaluation of a.mk halts with
that error rather than looping). -/
theorem include_on_stack_circular_witness :
    evalStmt [] [("a.mk", [.IncludeAST ⟨"a.mk", 1⟩ "" (.lit "a.mk") true])]
      ["a.mk"] emptyEval (.IncludeAST ⟨"a.mk", 1⟩ "" (.lit "a.mk") true)
      = .error .circularInclude :=
  include_on_stack_circular _ _ _ _ _ _ _ _ "a.mk" [] "a.mk"
    (by simp [expand, emptyEval]) (by decide) (by decide)

/-- Every path of the list missing from the file system and off the stack:
a non-required include evaluates to the unchanged state. -/
theorem evalPaths_all_missing (flib : FuncLib) (fsys : FileSystem)
    (ip : List String) (ev : Evaluator) :
    ∀ ps : List String,
      (∀ q, q ∈ ps → ¬ q ∈ ip ∧ lookupKey fsys q = Option.none) →
      evalPaths flib fsys ip ev ps false = .ok ev := by
  intro ps
  induction ps with
  | nil => intro _; simp [evalPaths]
  | cons p rest ih =>
    intro h
    have hp := h p (List.mem_cons_self _ _)
    have ihr := ih (fun q hq => h q (List.mem_cons_of_mem _ hq))
    simp only [evalPaths]
    rw [dif_neg hp.1]
    split
    · simpa using ihr
    · rename_i body heq
      rw [hp.2] at heq
      cases heq

/-- C6: an Include whose first expanded path names a nonexistent file fails
with MissingIncludeError when should_exist is true; with should_exist
false that path is skipped silently from the unchanged state and the
remaining paths are still processed; and when every path of a soft
Include is missing, the following directives of the including file
evaluate exactly as if the Include were absent. -/
theorem include_missing_required_or_skip (flib : FuncLib) (fsys : FileSystem)
    (ip : List String) (ev : Evaluator) (loc : Loc) (orig : String)
    (e : Value) (p : String) (rest : List String) (s : String)
    (h1 : expand flib ev.vars [] e = .ok s) (h2 : splitWS s = p :: rest)
    (h3 : ¬ p ∈ ip) (h4 : lookupKey fsys p = Option.none) :
    evalStmt flib fsys ip ev (.IncludeAST loc orig e true)
      = .error .missingInclude
    ∧ evalStmt flib fsys ip ev (.IncludeAST loc orig e false)
        = evalPaths flib fsys ip ev rest false
    ∧ (∀ tail : List AST,
        (∀ q, q ∈ rest → ¬ q ∈ ip ∧ lookupKey fsys q = Option.none) →
        evalStmts flib fsys ip ev (.IncludeAST loc orig e false :: tail)
          = evalStmts flib fsys ip ev tail) := by
  refine ⟨?_, ?_, ?_⟩
  · simp only [evalStmt, h1, h2, evalPaths]
    rw [dif_neg h3]
    split
    · rfl
    · rename_i body heq
      rw [h4] at heq
      cases heq
  · simp only [evalStmt, h1, h2, evalPaths]
    rw [dif_neg h3]
    split
    · simp
    · rename_i body heq
      rw [h4] at heq
      cases heq
  · intro tail hall
    have hskip : evalStmt flib fsys ip ev (.IncludeAST loc orig e false)
        = .ok ev := by
      simp only [evalStmt, h1, h2]
      have := evalPaths_all_missing flib fsys ip ev (p :: rest)
        (fun q hq => by
          rcases List.mem_cons.mp hq with hq' | hq'
          · subst hq'; exact ⟨h3, h4⟩
          · exact hall q hq')
      exact this
    simp only [evalStmts, hskip]

/-- C6 witness: a required include of the absent file b.mk fails with
MissingIncludeError, while a soft include of the same path is skipped and
the next directive of the including file still runs, storing X = "1". -/
theorem include_missing_required_or_skip_witness :
    evalStmt [] [] [] emptyEval (.IncludeAST ⟨"f", 1⟩ "" (.lit "b.mk") true)
      = .error .missingInclude
    ∧ evalStmts [] [] [] emptyEval
        [.IncludeAST ⟨"f", 1⟩ "" (.lit "b.mk") false,
         .AssignAST ⟨"f", 2⟩ "" (.lit "X") (.lit "1") .COLON_EQ .NONE]
      = evalStmts [] [] [] emptyEval
        [.AssignAST ⟨"f", 2⟩ "" (.lit "X") (.lit "1") .COLON_EQ .NONE] := by
  have h := include_missing_required_or_skip [] [] [] emptyEval ⟨"f", 1⟩ ""
    (.lit "b.mk") "b.mk" [] "b.mk" (by simp [expand, emptyEval]) (by decide)
    (by decide) rfl
  exact ⟨h.1, h.2.2 _ (fun q hq => by cases hq)⟩

/-- C2: the assignment resolution order.  (1) An override assignment writes
the binding unconditionally, whatever binding (of whatever origin, even
command-line) exists, for every operator: the deferred store =, the
immediate store :=, the default store ?=, and the append store += (over no
binding, over an immediate binding and over a deferred binding, each of
any origin).  (2) A non-override assignment whose target currently has a
command-line-origin binding leaves the variable table (and rule registry)
unchanged; with directive NONE it is a complete no-op.  (3) Under the same
non-override proviso, a ?= assignment whose target has any existing
binding, of any origin, leaves the variable table unchanged; with
directive NONE it is a complete no-op. -/
theorem assign_resolution_order (flib : FuncLib) (ev : Evaluator)
    (lhs rhs : Value) (op : AssignOp) (d : AssignDirective) (n : String)
    (hn : expand flib ev.vars [] lhs = .ok n) :
    (d = .OVERRIDE → op = .EQ →
      evalAssign flib ev lhs rhs op d
        = .ok { ev with vars := setVar ev.vars n ⟨.deferred rhs, .override⟩ })
    ∧ (∀ s, d = .OVERRIDE → op = .COLON_EQ →
      expand flib ev.vars [] rhs = .ok s →
      evalAssign flib ev lhs rhs op d
        = .ok { ev with vars := setVar ev.vars n ⟨.immediate s, .override⟩ })
    ∧ (d = .OVERRIDE → op = .QUESTION_EQ →
      evalAssign flib ev lhs rhs op d
        = .ok { ev with vars := setVar ev.vars n ⟨.deferred rhs, .override⟩ })
    ∧ (d = .OVERRIDE → op = .PLUS_EQ → lookupKey ev.vars n = Option.none →
      evalAssign flib ev lhs rhs op d
        = .ok { ev with vars := setVar ev.vars n ⟨.deferred rhs, .override⟩ })
    ∧ (∀ b s0 s2, d = .OVERRIDE → op = .PLUS_EQ →
      lookupKey ev.vars n = some b → b.value = .immediate s0 →
      expand flib ev.vars [] rhs = .ok s2 →
      evalAssign flib ev lhs rhs op d
        = .ok { ev with
            vars :=
              setVar ev.vars n ⟨.immediate (s0 ++ " " ++ s2), .override⟩ })
    ∧ (∀ b e0, d = .OVERRIDE → op = .PLUS_EQ →
      lookupKey ev.vars n = some b → b.value = .deferred e0 →
      evalAssign flib ev lhs rhs op d
        = .ok { ev with
            vars :=
              setVar ev.vars n
                ⟨.deferred (.cat e0 (.cat (.lit " ") rhs)), .override⟩ })
    ∧ (∀ b, ¬ d = .OVERRIDE → lookupKey ev.vars n = some b →
        b.origin = .commandLine →
        ∃ ev2, evalAssign flib ev lhs rhs op d = .ok ev2 ∧ ev2.vars = ev.vars
          ∧ ev2.rules = ev.rules)
    ∧ (∀ b, d = .NONE → lookupKey ev.vars n = some b →
        b.origin = .commandLine → evalAssign flib ev lhs rhs op d = .ok ev)
    ∧ (∀ b, ¬ d = .OVERRIDE → op = .QUESTION_EQ →
        lookupKey ev.vars n = some b →
        ∃ ev2, evalAssign flib ev lhs rhs op d = .ok ev2 ∧ ev2.vars = ev.vars
          ∧ ev2.rules = ev.rules)
    ∧ (∀ b, d = .NONE → op = .QUESTION_EQ → lookupKey ev.vars n = some b →
        evalAssign flib ev lhs rhs op d = .ok ev) := by
  refine ⟨?_, ?_, ?_, ?_, ?_, ?_, ?_, ?_, ?_, ?_⟩
  · intro hd hop; subst hd; subst hop
    simp [evalAssign, hn, doAssign]
  · intro s hd hop hr; subst hd; subst hop
    simp [evalAssign, hn, doAssign, hr]
  · intro hd hop; subst hd; subst hop
    simp [evalAssign, hn, doAssign]
  · intro hd hop hnone; subst hd; subst hop
    simp [evalAssign, hn, doAssign, hnone]
  · intro b s0 s2 hd hop hb hv hr; subst hd; subst hop
    simp [evalAssign, hn, doAssign, hb, hv, hr]
  · intro b e0 hd hop hb hv; subst hd; subst hop
    simp [evalAssign, hn, doAssign, hb, hv]
  · intro b hd hb horig
    cases d with
    | OVERRIDE => exact absurd rfl hd
    | NONE =>
      refine ⟨ev, ?_, rfl, rfl⟩
      simp [evalAssign, hn, hb, horig]
    | EXPORT =>
      refine ⟨{ ev with exports := insertName n ev.exports }, ?_, rfl, rfl⟩
      simp [evalAssign, hn, hb, horig]
  · intro b hd hb horig; subst hd
    simp [evalAssign, hn, hb, horig]
  · intro b hd hop hb; subst hop
    cases d with
    | OVERRIDE => exact absurd rfl hd
    | NONE =>
      by_cases horig : b.origin = .commandLine
      · refine ⟨ev, ?_, rfl, rfl⟩
        simp [evalAssign, hn, hb, horig]
      · refine ⟨ev, ?_, rfl, rfl⟩
        simp [evalAssign, hn, hb, horig, doAssign]
    | EXPORT =>
      by_cases horig : b.origin = .commandLine
      · refine ⟨{ ev with exports := insertName n ev.exports }, ?_, rfl, rfl⟩
        simp [evalAssign, hn, hb, horig]
      · refine ⟨{ ev with exports := insertName n ev.exports }, ?_, rfl, rfl⟩
        simp [evalAssign, hn, hb, horig, doAssign]
  · intro b hd hop hb; subst hd; subst hop
    by_cases horig : b.origin = .commandLine
    · simp [evalAssign, hn, hb, horig]
    · simp [evalAssign, hn, hb, horig, doAssign]

/-- C2 witness: over a command-line binding of V, an override = assignment
writes the new deferred binding and an override += assignment appends to
the command-line value and writes the result, while a plain = assignment
is a complete no-op; and over a file-origin binding of W, a plain ?=
assignment is a complete no-op. -/
theorem assign_resolution_order_witness :
    evalAssign [] { emptyEval with
        vars := [("V", ⟨.immediate "cl", .commandLine⟩)] }
      (.lit "V") (.lit "x") .EQ .OVERRIDE
      = .ok { emptyEval with
          vars := [("V", ⟨.deferred (.lit "x"), .override⟩)] }
    ∧ evalAssign [] { emptyEval with
        vars := [("V", ⟨.immediate "cl", .commandLine⟩)] }
      (.lit "V") (.lit "x") .PLUS_EQ .OVERRIDE
      = .ok { emptyEval with
          vars := [("V", ⟨.immediate "cl x", .override⟩)] }
    ∧ evalAssign [] { emptyEval with
        vars := [("V", ⟨.immediate "cl", .commandLine⟩)] }
      (.lit "V") (.lit "x") .EQ .NONE
      = .ok { emptyEval with
          vars := [("V", ⟨.immediate "cl", .commandLine⟩)] }
    ∧ evalAssign [] { emptyEval with vars := [("W", ⟨.immediate "w", .file⟩)] }
      (.lit "W") (.lit "x") .QUESTION_EQ .NONE
      = .ok { emptyEval with vars := [("W", ⟨.immediate "w", .file⟩)] } := by
  refine ⟨?_, ?_, ?_, ?_⟩
  · have h := (assign_resolution_order []
      { emptyEval with vars := [("V", ⟨.immediate "cl", .commandLine⟩)] }
      (.lit "V") (.lit "x") .EQ .OVERRIDE "V" (by simp [expand])).1 rfl rfl
    simpa [emptyEval, setVar] using h
  · have h := (assign_resolution_order []
      { emptyEval with vars := [("V", ⟨.immediate "cl", .commandLine⟩)] }
      (.lit "V") (.lit "x") .PLUS_EQ .OVERRIDE "V"
      (by simp [expand])).2.2.2.2.1
      (⟨.immediate "cl", .commandLine⟩ : Binding) "cl" "x"
      rfl rfl rfl rfl (by simp [expand])
    simpa [emptyEval, setVar] using h
  · exact (assign_resolution_order []
      { emptyEval with vars := [("V", ⟨.immediate "cl", .commandLine⟩)] }
      (.lit "V") (.lit "x") .EQ .NONE "V"
      (by simp [expand])).2.2.2.2.2.2.2.1
      (⟨.immediate "cl", .commandLine⟩ : Binding) rfl rfl rfl
  · exact (assign_resolution_order []
      { emptyEval with vars := [("W", ⟨.immediate "w", .file⟩)] }
      (.lit "W") (.lit "x") .QUESTION_EQ .NONE "W"
      (by simp [expand])).2.2.2.2.2.2.2.2.2
      (⟨.immediate "w", .file⟩ : Binding) rfl rfl rfl

theorem lookupKey_setVar (vt : VarTable) (n : String) (b : Binding)
    (m : String) :
    lookupKey (setVar vt n b) m = if n = m then some b else lookupKey vt m := by
  induction vt with
  | nil => simp [setVar, lookupKey]
  | cons x rest ih =>
    obtain ⟨k, c⟩ := x
    simp only [setVar]
    by_cases hk : k = n
    · subst hk
      simp only [if_pos rfl, lookupKey]
      by_cases hm : k = m <;> simp [hm]
    · rw [if_neg hk]
      by_cases hm : k = m
      · subst hm
        rw [if_neg (fun h => hk h.symm)]
        simp [lookupKey]
      · simp [lookupKey, hm, ih]

/-- Reading a variable whose binding is an immediate (pre-expanded) literal
returns the cached text, independently of anything else in the table. -/
theorem expand_ref_immediate (flib : FuncLib) (vt : VarTable) (n s : String)
    (o : Origin) (h : lookupKey vt n = some ⟨.immediate s, o⟩) :
    expand flib vt [] (.ref (.lit n)) = .ok s := by
  simp only [expand]
  simp only [List.mem_nil_iff, dite_false]
  split
  · rename_i heq
    rw [h] at heq
    cases heq
  · rename_i b heq
    rw [h] at heq
    injection heq with heq
    subst heq
    rfl

/-- The storage dispatch touches at most the binding of its own target
name, and nothing else of the evaluator. -/
theorem doAssign_shape (flib : FuncLib) (ev : Evaluator) (n : String)
    (rhs : Value) (op : AssignOp) (origin : Origin) (u : Bool)
    (ev2 : Evaluator) (h : doAssign flib ev n rhs op origin u = .ok ev2) :
    (ev2.vars = ev.vars ∨ ∃ vb, ev2.vars = setVar ev.vars n vb)
    ∧ ev2.rules = ev.rules ∧ ev2.currentRule = ev.currentRule
    ∧ ev2.exports = ev.exports := by
  cases op <;> simp only [doAssign] at h <;> repeat' split at h
  all_goals
    first
      | (simp at h; done)
      | (simp only [Except.ok.injEq] at h; subst h;
         exact ⟨Or.inr ⟨_, rfl⟩, rfl, rfl, rfl⟩)
      | (simp only [Except.ok.injEq] at h; subst h;
         exact ⟨Or.inl rfl, rfl, rfl, rfl⟩)

/-- An assignment touches at most the binding of its expanded target name
in the variable table, and never the rule registry. -/
theorem evalAssign_shape (flib : FuncLib) (ev : Evaluator) (lhs rhs : Value)
    (op : AssignOp) (d : AssignDirective) (n : String) (ev2 : Evaluator)
    (hn : expand flib ev.vars [] lhs = .ok n)
    (h : evalAssign flib ev lhs rhs op d = .ok ev2) :
    (ev2.vars = ev.vars ∨ ∃ vb, ev2.vars = setVar ev.vars n vb)
    ∧ ev2.rules = ev.rules := by
  simp only [evalAssign, hn] at h
  split at h
  · simp at h
  · rename_i ev' heq
    simp only [Except.ok.injEq] at h
    subst h
    have hsh : (ev'.vars = ev.vars ∨ ∃ vb, ev'.vars = setVar ev.vars n vb)
        ∧ ev'.rules = ev.rules := by
      by_cases hd : d = AssignDirective.OVERRIDE
      · rw [if_pos hd] at heq
        have hs := doAssign_shape _ _ _ _ _ _ _ _ heq
        exact ⟨hs.1, hs.2.1⟩
      · rw [if_neg hd] at heq
        split at heq
        · rename_i b hb
          split at heq
          · simp only [Except.ok.injEq] at heq
            subst heq
            exact ⟨Or.inl rfl, rfl⟩
          · have hs := doAssign_shape _ _ _ _ _ _ _ _ heq
            exact ⟨hs.1, hs.2.1⟩
        · have hs := doAssign_shape _ _ _ _ _ _ _ _ heq
          exact ⟨hs.1, hs.2.1⟩
    by_cases hx : d = AssignDirective.EXPORT
    · rw [if_pos hx]
      exact ⟨hsh.1, hsh.2⟩
    · rw [if_neg hx]
      exact hsh

/-- C4: a := assignment expands its right-hand side once, against the
variable table as it exists at assignment time, and stores the resulting
literal: reading the variable yields that text, and after any further
assignment whose target expands to a different name, both the stored
binding and the text obtained by re-reading the variable are unchanged. -/
theorem colon_eq_expands_once_and_is_stable (flib : FuncLib) (ev : Evaluator)
    (lhs rhs : Value) (n s : String)
    (h1 : expand flib ev.vars [] lhs = .ok n)
    (h2 : expand flib ev.vars [] rhs = .ok s)
    (h3 : ∀ b, lookupKey ev.vars n = some b → ¬ b.origin = .commandLine) :
    ∃ ev1, evalAssign flib ev lhs rhs .COLON_EQ .NONE = .ok ev1
      ∧ ev1.vars = setVar ev.vars n ⟨.immediate s, .file⟩
      ∧ expand flib ev1.vars [] (.ref (.lit n)) = .ok s
      ∧ (∀ lhs2 rhs2 op2 d2 m ev2,
          expand flib ev1.vars [] lhs2 = .ok m → ¬ m = n →
          evalAssign flib ev1 lhs2 rhs2 op2 d2 = .ok ev2 →
          lookupKey ev2.vars n = some ⟨.immediate s, .file⟩
          ∧ expand flib ev2.vars [] (.ref (.lit n)) = .ok s) := by
  refine ⟨{ ev with vars := setVar ev.vars n ⟨.immediate s, .file⟩ },
    ?_, rfl, ?_, ?_⟩
  · cases hb : lookupKey ev.vars n with
    | none => simp [evalAssign, h1, hb, doAssign, h2]
    | some b =>
      have hcl := h3 b hb
      simp [evalAssign, h1, hb, hcl, doAssign, h2]
  · exact expand_ref_immediate _ _ _ _ .file (by simp [lookupKey_setVar])
  · intro lhs2 rhs2 op2 d2 m ev2 hm hmn hok
    have hs := evalAssign_shape _ _ lhs2 rhs2 op2 d2 m ev2 hm hok
    have hlk : lookupKey ev2.vars n = some ⟨.immediate s, .file⟩ := by
      rcases hs.1 with hv | ⟨vb, hv⟩
      · rw [hv]; simp [lookupKey_setVar]
      · rw [hv]
        simp only [lookupKey_setVar]
        rw [if_neg hmn]
        simp [lookupKey_setVar]
    exact ⟨hlk, expand_ref_immediate _ _ _ _ _ hlk⟩

/-- C4 witness: with Y = "1", X := $(Y) stores the immediate text "1";
after Y is reassigned to "2", X still holds and re-reads as "1". -/
theorem colon_eq_expands_once_and_is_stable_witness :
    ∃ ev1, evalAssign []
        { emptyEval with vars := [("Y", ⟨.immediate "1", .file⟩)] }
        (.lit "X") (.ref (.lit "Y")) .COLON_EQ .NONE = .ok ev1
      ∧ expand [] ev1.vars [] (.ref (.lit "X")) = .ok "1"
      ∧ ∀ ev2,
          evalAssign [] ev1 (.lit "Y") (.lit "2") .COLON_EQ .NONE = .ok ev2 →
          expand [] ev2.vars [] (.ref (.lit "X")) = .ok "1" := by
  obtain ⟨ev1, hok, hvars, hread, hstable⟩ :=
    colon_eq_expands_once_and_is_stable []
      { emptyEval with vars := [("Y", ⟨.immediate "1", .file⟩)] }
      (.lit "X") (.ref (.lit "Y")) "X" "1"
      (by simp [expand]) (by simp [expand, lookupKey]) (by simp [lookupKey])
  refine ⟨ev1, hok, hread, ?_⟩
  intro ev2 h2
  exact (hstable (.lit "Y") (.lit "2") .COLON_EQ .NONE "Y" ev2
    (by simp [expand]) (by decide) h2).2

theorem mem_insertName (v n : String) (l : List String) :
    v ∈ insertName n l ↔ v = n ∨ v ∈ l := by
  unfold insertName
  by_cases h : n ∈ l
  · rw [if_pos h]
    constructor
    · exact Or.inr
    · rintro (rfl | hv)
      · exact h
      · exact hv
  · rw [if_neg h]
    exact List.mem_cons

theorem mem_removeName (v n : String) (l : List String) :
    v ∈ removeName n l ↔ v ∈ l ∧ ¬ v = n := by
  simp [removeName, List.mem_filter]

theorem mem_setExportFlag (v n : String) (l : List String) (enable : Bool) :
    v ∈ setExportFlag l n enable ↔ (if v = n then enable = true else v ∈ l) := by
  cases enable
  · simp only [setExportFlag, Bool.false_eq_true, if_false, mem_removeName]
    by_cases hv : v = n <;> simp [hv]
  · simp only [setExportFlag, if_true, mem_insertName]
    by_cases hv : v = n <;> simp [hv]

theorem mem_foldl_setExportFlag (enable : Bool) :
    ∀ (ns ex : List String) (v : String),
      (v ∈ ns.foldl (fun ex n => setExportFlag ex n enable) ex)
        ↔ (if v ∈ ns then enable = true else v ∈ ex) := by
  intro ns
  induction ns with
  | nil => intro ex v; simp
  | cons n rest ih =>
    intro ex v
    simp only [List.foldl_cons]
    rw [ih]
    by_cases hv : v ∈ rest
    · simp [hv, List.mem_cons]
    · by_cases hvn : v = n
      · subst hvn
        simp [hv, mem_setExportFlag]
      · simp [hv, hvn, mem_setExportFlag, List.mem_cons]

/-- C8: an Export directive whose expression expands to a non-empty name
list flips exactly the named variables' export flags to enable, leaving
every other name's flag unchanged (and the variable table and rule
registry untouched); when the expansion is empty or whitespace-only, the
flag of every variable currently in the Variable Table is set to enable,
and names outside the table are unaffected. -/
theorem export_explicit_names_or_all (flib : FuncLib) (ev : Evaluator)
    (e : Value) (enable : Bool) (s : String)
    (h : expand flib ev.vars [] e = .ok s) :
    (¬ splitWS s = [] →
      ∃ ev2, evalExport flib ev e enable = .ok ev2 ∧ ev2.vars = ev.vars
        ∧ ev2.rules = ev.rules
        ∧ (∀ v, ¬ v ∈ splitWS s → (v ∈ ev2.exports ↔ v ∈ ev.exports))
        ∧ (∀ v, v ∈ splitWS s → (v ∈ ev2.exports ↔ enable = true)))
    ∧ (splitWS s = [] →
      ∃ ev2, evalExport flib ev e enable = .ok ev2 ∧ ev2.vars = ev.vars
        ∧ ev2.rules = ev.rules
        ∧ (∀ v, v ∈ keysOf ev.vars → (v ∈ ev2.exports ↔ enable = true))
        ∧ (∀ v, ¬ v ∈ keysOf ev.vars →
            (v ∈ ev2.exports ↔ v ∈ ev.exports))) := by
  constructor
  · intro hne
    refine ⟨{ ev with
        exports :=
          (splitWS s).foldl (fun ex n => setExportFlag ex n enable)
            ev.exports },
      ?_, rfl, rfl, ?_, ?_⟩
    · simp only [evalExport, h]
      rw [if_neg hne]
    · intro v hv
      simp only [mem_foldl_setExportFlag]
      rw [if_neg hv]
    · intro v hv
      simp only [mem_foldl_setExportFlag]
      rw [if_pos hv]
  · intro hemp
    refine ⟨{ ev with
        exports :=
          (keysOf ev.vars).foldl (fun ex n => setExportFlag ex n enable)
            ev.exports },
      ?_, rfl, rfl, ?_, ?_⟩
    · simp only [evalExport, h, hemp]
      simp
    · intro v hv
      simp only [mem_foldl_setExportFlag]
      rw [if_pos hv]
    · intro v hv
      simp only [mem_foldl_setExportFlag]
      rw [if_neg hv]

/-- A sample evaluator for the export witness: two table variables A and B,
with C already exported. -/
def exportSample : Evaluator :=
  { vars := [("A", ⟨.immediate "1", .file⟩), ("B", ⟨.immediate "2", .file⟩)],
    rules := [], currentRule := Option.none, exports := ["C"] }

/-- C8 witness: exporting the explicit name A touches only A's flag, and an
export with empty expansion applies to every variable of the table (A and
B) at that moment. -/
theorem export_explicit_names_or_all_witness :
    (∃ ev2, evalExport [] exportSample (.lit "A") true = .ok ev2
      ∧ ev2.vars = exportSample.vars ∧ ev2.rules = exportSample.rules
      ∧ (∀ v, ¬ v ∈ splitWS "A" → (v ∈ ev2.exports ↔ v ∈ exportSample.exports))
      ∧ (∀ v, v ∈ splitWS "A" → (v ∈ ev2.exports ↔ true = true)))
    ∧ (∃ ev2, evalExport [] exportSample (.lit "") true = .ok ev2
      ∧ ev2.vars = exportSample.vars ∧ ev2.rules = exportSample.rules
      ∧ (∀ v, v ∈ keysOf exportSample.vars → (v ∈ ev2.exports ↔ true = true))
      ∧ (∀ v, ¬ v ∈ keysOf exportSample.vars →
          (v ∈ ev2.exports ↔ v ∈ exportSample.exports))) :=
  ⟨(export_explicit_names_or_all [] exportSample (.lit "A") true "A"
      (by simp [expand])).1 (by decide),
   (export_explicit_names_or_all [] exportSample (.lit "") true ""
      (by simp [expand])).2 (by decide)⟩

theorem conflicting_of_findTargetIdx_none (rs : List RuleBody) (t : String)
    (dc : Bool) (h : findTargetIdx rs t = Option.none) :
    conflicting rs t dc = false := by
  induction rs with
  | nil => rfl
  | cons b rest ih =>
    simp only [findTargetIdx] at h
    by_cases hb : b.target = t
    · rw [if_pos hb] at h; cases h
    · rw [if_neg hb] at h
      have hrest : findTargetIdx rest t = Option.none := by
        cases hr : findTargetIdx rest t
        · rfl
        · rw [hr] at h; cases h
      simp only [conflicting, List.any_cons]
      rw [Bool.or_eq_false_iff]
      constructor
      · simp [hb]
      · exact ih hrest

theorem findTargetIdx_append_none (rs : List RuleBody) (b : RuleBody)
    (t : String) (h : findTargetIdx rs t = Option.none) :
    findTargetIdx (rs ++ [b]) t
      = if b.target = t then some rs.length else Option.none := by
  induction rs with
  | nil => simp [findTargetIdx]
  | cons c rest ih =>
    simp only [findTargetIdx] at h
    by_cases hc : c.target = t
    · rw [if_pos hc] at h; cases h
    · rw [if_neg hc] at h
      have hrest : findTargetIdx rest t = Option.none := by
        cases hr : findTargetIdx rest t
        · rfl
        · rw [hr] at h; cases h
      simp only [List.cons_append, findTargetIdx, if_neg hc, List.append_eq]
      rw [ih hrest]
      by_cases hb : b.target = t
      · rw [if_pos hb, if_pos hb]
        simp
      · rw [if_neg hb, if_neg hb]
        rfl

theorem modifyAt_append (rs : List RuleBody) (b : RuleBody)
    (f : RuleBody → RuleBody) :
    modifyAt (rs ++ [b]) rs.length f = rs ++ [f b] := by
  induction rs with
  | nil => rfl
  | cons c rest ih => simp [modifyAt, ih]

/-- C3: with no prior rule body for target t, two single-colon rules for t
merge into one body whose prerequisite list is the concatenation of both
expanded prerequisite lists in textual order (duplicates kept), with the
current recipe accumulator pointing at the merged body; two double-colon
rules for t produce two separate independent bodies, each with its own
prerequisites and its own (empty) recipe accumulator, the second one
current. -/
theorem rule_single_colon_merges_double_colon_appends (flib : FuncLib)
    (ev : Evaluator) (tv pv1 pv2 : Value) (t st s1 s2 : String)
    (ht : expand flib ev.vars [] tv = .ok st) (hts : splitWS st = [t])
    (h1 : expand flib ev.vars [] pv1 = .ok s1)
    (h2 : expand flib ev.vars [] pv2 = .ok s2)
    (hnone : findTargetIdx ev.rules t = Option.none) :
    (∃ ev1 ev2,
      evalRule flib ev tv false pv1 = .ok ev1
      ∧ evalRule flib ev1 tv false pv2 = .ok ev2
      ∧ ev1.rules = ev.rules ++ [⟨t, false, splitWS s1, []⟩]
      ∧ ev2.rules = ev.rules ++ [⟨t, false, splitWS s1 ++ splitWS s2, []⟩]
      ∧ ev2.currentRule = some ev.rules.length
      ∧ ev2.vars = ev.vars)
    ∧ (∃ ev1 ev2,
      evalRule flib ev tv true pv1 = .ok ev1
      ∧ evalRule flib ev1 tv true pv2 = .ok ev2
      ∧ ev1.rules = ev.rules ++ [⟨t, true, splitWS s1, []⟩]
      ∧ ev2.rules
          = ev.rules ++ [⟨t, true, splitWS s1, []⟩, ⟨t, true, splitWS s2, []⟩]
      ∧ ev2.currentRule = some (ev.rules.length + 1)
      ∧ ev2.vars = ev.vars) := by
  have hconf : ∀ dc, conflicting ev.rules t dc = false :=
    fun dc => conflicting_of_findTargetIdx_none ev.rules t dc hnone
  constructor
  · refine ⟨{ ev with
        rules := ev.rules ++ [⟨t, false, splitWS s1, []⟩]
        currentRule := some ev.rules.length },
      { ev with
        rules := ev.rules ++ [⟨t, false, splitWS s1 ++ splitWS s2, []⟩]
        currentRule := some ev.rules.length },
      ?_, ?_, rfl, rfl, rfl, rfl⟩
    · simp only [evalRule, ht, h1, hts, addRuleTargets, addRuleTarget,
        hconf false, hnone]
      simp
    · simp only [evalRule, ht, h1, h2, hts, addRuleTargets, addRuleTarget]
      have hfind := findTargetIdx_append_none ev.rules
        ⟨t, false, splitWS s1, []⟩ t hnone
      rw [if_pos rfl] at hfind
      have hconf2 : conflicting (ev.rules ++ [⟨t, false, splitWS s1, []⟩])
          t false = false := by
        simp only [conflicting, List.any_append]
        rw [Bool.or_eq_false_iff]
        exact ⟨hconf false, by simp⟩
      simp only [hconf2, hfind]
      simp [modifyAt_append]
  · refine ⟨{ ev with
        rules := ev.rules ++ [⟨t, true, splitWS s1, []⟩]
        currentRule := some ev.rules.length },
      { ev with
        rules :=
          ev.rules ++ [⟨t, true, splitWS s1, []⟩, ⟨t, true, splitWS s2, []⟩]
        currentRule := some (ev.rules.length + 1) },
      ?_, ?_, rfl, rfl, rfl, rfl⟩
    · simp only [evalRule, ht, h1, hts, addRuleTargets, addRuleTarget,
        hconf true]
      simp
    · simp only [evalRule, ht, h1, h2, hts, addRuleTargets, addRuleTarget]
      have hconf2 : conflicting (ev.rules ++ [⟨t, true, splitWS s1, []⟩])
          t true = false := by
        simp only [conflicting, List.any_append]
        rw [Bool.or_eq_false_iff]
        exact ⟨hconf true, by simp⟩
      simp only [hconf2]
      simp

/-- C3 witness: the spec's example: foo: a then foo: b yield one body for
foo with prerequisites [a, b]; foo:: a then foo:: b yield two bodies with
one prerequisite each. -/
theorem rule_single_colon_merges_double_colon_appends_witness :
    (∃ ev1 ev2,
      evalRule [] emptyEval (.lit "foo") false (.lit "a") = .ok ev1
      ∧ evalRule [] ev1 (.lit "foo") false (.lit "b") = .ok ev2
      ∧ ev1.rules = [⟨"foo", false, ["a"], []⟩]
      ∧ ev2.rules = [⟨"foo", false, ["a", "b"], []⟩]
      ∧ ev2.currentRule = some 0 ∧ ev2.vars = emptyEval.vars)
    ∧ (∃ ev1 ev2,
      evalRule [] emptyEval (.lit "foo") true (.lit "a") = .ok ev1
      ∧ evalRule [] ev1 (.lit "foo") true (.lit "b") = .ok ev2
      ∧ ev1.rules = [⟨"foo", true, ["a"], []⟩]
      ∧ ev2.rules = [⟨"foo", true, ["a"], []⟩, ⟨"foo", true, ["b"], []⟩]
      ∧ ev2.currentRule = some 1 ∧ ev2.vars = emptyEval.vars) := by
  have h := rule_single_colon_merges_double_colon_appends [] emptyEval
    (.lit "foo") (.lit "a") (.lit "b") "foo" "foo" "a" "b"
    (by simp [expand]) (by decide) (by simp [expand]) (by simp [expand]) rfl
  constructor
  · obtain ⟨ev1, ev2, ha, hb, hr1, hr2, hc, hv⟩ := h.1
    exact ⟨ev1, ev2, ha, hb, by simpa [emptyEval] using hr1,
      by simpa [emptyEval] using hr2, by simpa [emptyEval] using hc, hv⟩
  · obtain ⟨ev1, ev2, ha, hb, hr1, hr2, hc, hv⟩ := h.2
    exact ⟨ev1, ev2, ha, hb, by simpa [emptyEval] using hr1,
      by simpa [emptyEval] using hr2, by simpa [emptyEval] using hc, hv⟩

mutual

/-- Whether an expression syntactically contains a reference to the
variable named n: a ref whose name is the literal n, at any depth,
including inside computed-name subexpressions and function arguments. -/
def containsRef : Value → String → Bool
  | .lit _, _ => false
  | .ref (.lit m), n => m == n
  | .ref q, n => containsRef q n
  | .cat a b, n => containsRef a n || containsRef b n
  | .func _ args, n => containsRefArgs args n

/-- containsRef over a function invocation's argument list. -/
def containsRefArgs : List Value → String → Bool
  | [], _ => false
  | a :: rest, n => containsRef a n || containsRefArgs rest n

end

/-- An expression with no function-invocation fragments. -/
def funcFree : Value → Bool
  | .lit _ => true
  | .ref q => funcFree q
  | .cat a b => funcFree a && funcFree b
  | .func _ _ => false

/-- A variable table whose deferred bindings are all function-free. -/
def funcFreeTable (vt : VarTable) : Bool :=
  vt.all (fun p =>
    match p.2.value with
    | .immediate _ => true
    | .deferred e => funcFree e)

theorem funcFree_of_table (vt : VarTable) (hft : funcFreeTable vt = true) :
    ∀ n b e, lookupKey vt n = some b → b.value = .deferred e →
      funcFree e = true := by
  induction vt with
  | nil =>
    intro n b e h
    simp [lookupKey] at h
  | cons p rest ih =>
    intro n b e hl hv
    obtain ⟨m, c⟩ := p
    simp only [funcFreeTable, List.all_cons, Bool.and_eq_true] at hft
    simp only [lookupKey] at hl
    by_cases hm : m = n
    · rw [if_pos hm] at hl
      injection hl with hl
      subst hl
      have h1 := hft.1
      rw [hv] at h1
      exact h1
    · rw [if_neg hm] at hl
      exact ih hft.2 n b e hl hv

/-- The only errors expansion can produce are the recursion error and the
unknown-function error: expansion of any expression against any table and
library either returns text or fails with one of these two. -/
theorem expand_error_classified (flib : FuncLib) (vt : VarTable) :
    ∀ (ip : List String) (v : Value) (e : EvalError),
      expand flib vt ip v = .error e →
      e = .recursiveExpansion ∨ e = .undefinedFunction := by
  refine expand.induct flib vt
    (fun ip v => ∀ e, expand flib vt ip v = .error e →
      e = .recursiveExpansion ∨ e = .undefinedFunction)
    (fun ip args => ∀ e, expandArgs flib vt ip args = .error e →
      e = .recursiveExpansion ∨ e = .undefinedFunction)
    ?_ ?_ ?_ ?_ ?_ ?_ ?_ ?_ ?_ ?_ ?_ ?_ ?_ ?_ ?_ ?_
  · intro x s e h
    simp [expand] at h
  · intro ip nameE e' hname ih e h
    simp only [expand, hname] at h
    simp only [Except.error.injEq] at h
    exact h ▸ ih e' hname
  · intro ip nameE n hname hmem ih e h
    simp only [expand, hname] at h
    rw [dif_pos hmem] at h
    simp only [Except.error.injEq] at h
    exact Or.inl h.symm
  · intro ip nameE n hname hmem hl ih e h
    simp only [expand, hname] at h
    rw [dif_neg hmem] at h
    split at h
    · simp at h
    · rename_i b heq
      rw [hl] at heq
      cases heq
  · intro ip nameE n hname hmem b hl a hb ih e h
    simp only [expand, hname] at h
    rw [dif_neg hmem] at h
    split at h
    · rename_i heq
      rw [hl] at heq
      cases heq
    · rename_i b2 heq
      rw [hl] at heq
      injection heq with heq
      subst heq
      simp only [hb] at h
      simp at h
  · intro ip nameE n hname hmem b hl a hb ih ih2 e h
    simp only [expand, hname] at h
    rw [dif_neg hmem] at h
    split at h
    · rename_i heq
      rw [hl] at heq
      cases heq
    · rename_i b2 heq
      rw [hl] at heq
      injection heq with heq
      subst heq
      simp only [hb] at h
      exact ih2 e h
  · intro ip a b e' ha iha e h
    simp only [expand, ha] at h
    simp only [Except.error.injEq] at h
    exact h ▸ iha e' ha
  · intro ip a b sa ha e' hb iha ihb e h
    simp only [expand, ha, hb] at h
    simp only [Except.error.injEq] at h
    exact h ▸ ihb e' hb
  · intro ip a b sa ha sb hb iha ihb e h
    simp only [expand, ha, hb] at h
    exact Except.noConfusion h
  · intro ip f args e' hargs ih2 e h
    simp only [expand, hargs] at h
    simp only [Except.error.injEq] at h
    exact h ▸ ih2 e' hargs
  · intro ip f args xs hargs hfl ih2 e h
    simp only [expand, hargs, hfl] at h
    simp only [Except.error.injEq] at h
    exact Or.inr h.symm
  · intro ip f args xs hargs impl himpl ih2 e h
    simp only [expand, hargs, himpl] at h
    exact Except.noConfusion h
  · intro x e h
    simp [expandArgs] at h
  · intro ip a rest e' ha ih1 e h
    simp only [expandArgs, ha] at h
    simp only [Except.error.injEq] at h
    exact h ▸ ih1 e' ha
  · intro ip a rest n ha e' hrest ih1 ih2 e h
    simp only [expandArgs, ha, hrest] at h
    simp only [Except.error.injEq] at h
    exact h ▸ ih2 e' hrest
  · intro ip a rest n ha xs hrest ih1 ih2 e h
    simp only [expandArgs, ha, hrest] at h
    exact Except.noConfusion h

/-- Over a function-free table, expansion of a function-free expression can
only fail with the recursion error. -/
theorem expand_funcFree_error (flib : FuncLib) (vt : VarTable)
    (hft : funcFreeTable vt = true) :
    ∀ (ip : List String) (v : Value), funcFree v = true →
      ∀ e, expand flib vt ip v = .error e → e = .recursiveExpansion := by
  refine expand.induct flib vt
    (fun ip v => funcFree v = true →
      ∀ e, expand flib vt ip v = .error e → e = .recursiveExpansion)
    (fun ip args => True)
    ?_ ?_ ?_ ?_ ?_ ?_ ?_ ?_ ?_ ?_ ?_ ?_ ?_ ?_ ?_ ?_
  · intro x s hff e h
    simp [expand] at h
  · intro ip nameE e' hname ih hff e h
    have hffn : funcFree nameE = true := by simpa [funcFree] using hff
    simp only [expand, hname] at h
    simp only [Except.error.injEq] at h
    exact h ▸ ih hffn e' hname
  · intro ip nameE n hname hmem ih hff e h
    simp only [expand, hname] at h
    rw [dif_pos hmem] at h
    simp only [Except.error.injEq] at h
    exact h.symm
  · intro ip nameE n hname hmem hl ih hff e h
    simp only [expand, hname] at h
    rw [dif_neg hmem] at h
    split at h
    · simp at h
    · rename_i b heq
      rw [hl] at heq
      cases heq
  · intro ip nameE n hname hmem b hl a hb ih hff e h
    simp only [expand, hname] at h
    rw [dif_neg hmem] at h
    split at h
    · rename_i heq
      rw [hl] at heq
      cases heq
    · rename_i b2 heq
      rw [hl] at heq
      injection heq with heq
      subst heq
      simp only [hb] at h
      simp at h
  · intro ip nameE n hname hmem b hl a hb ih ih2 hff e h
    simp only [expand, hname] at h
    rw [dif_neg hmem] at h
    split at h
    · rename_i heq
      rw [hl] at heq
      cases heq
    · rename_i b2 heq
      rw [hl] at heq
      injection heq with heq
      subst heq
      simp only [hb] at h
      exact ih2 (funcFree_of_table vt hft n b a hl hb) e h
  · intro ip a b e' ha iha hff e h
    simp only [funcFree, Bool.and_eq_true] at hff
    simp only [expand, ha] at h
    simp only [Except.error.injEq] at h
    exact h ▸ iha hff.1 e' ha
  · intro ip a b sa ha e' hb iha ihb hff e h
    simp only [funcFree, Bool.and_eq_true] at hff
    simp only [expand, ha, hb] at h
    simp only [Except.error.injEq] at h
    exact h ▸ ihb hff.2 e' hb
  · intro ip a b sa ha sb hb iha ihb hff e h
    simp only [expand, ha, hb] at h
    exact Except.noConfusion h
  · intro ip f args e' hargs ih2 hff e h
    simp [funcFree] at hff
  · intro ip f args xs hargs hfl ih2 hff e h
    simp [funcFree] at hff
  · intro ip f args xs hargs impl himpl ih2 hff e h
    simp [funcFree] at hff
  · intro x
    trivial
  · intro ip a rest e' ha ih1
    trivial
  · intro ip a rest n ha e' hrest ih1 ih2
    trivial
  · intro ip a rest n ha xs hrest ih1 ih2
    trivial

/-- The deferred variable b is bound and its re-expansion with b marked
in-progress fails. -/
def VarFails (flib : FuncLib) (vt : VarTable) (ip : List String)
    (b : String) : Prop :=
  ∃ e o, lookupKey vt b = some ⟨.deferred e, o⟩
    ∧ ∃ er, expand flib vt (b :: ip) e = .error er

/-- Syntactic dependency between variables of the table: a's binding is a
deferred expression that references b. -/
def DependsOn (vt : VarTable) (a b : String) : Prop :=
  ∃ e o, lookupKey vt a = some ⟨.deferred e, o⟩ ∧ containsRef e b = true

mutual

/-- An expression referencing a name that is in progress (or whose
re-expansion fails) fails to expand. -/
theorem expand_fails_of_containsRef (flib : FuncLib) (vt : VarTable) :
    ∀ (v : Value) (ip : List String) (b : String),
      containsRef v b = true →
      (b ∈ ip ∨ VarFails flib vt ip b) →
      ∃ er, expand flib vt ip v = .error er
  | .lit s, ip, b, hc, hf => by
    simp [containsRef] at hc
  | .ref (.lit m), ip, b, hc, hf => by
    have hm : m = b := by simpa [containsRef] using hc
    subst hm
    simp only [expand]
    by_cases hmem : m ∈ ip
    · rw [dif_pos hmem]
      exact ⟨_, rfl⟩
    · rw [dif_neg hmem]
      rcases hf with hf | ⟨e, o, hlk, er, herr⟩
      · exact absurd hf hmem
      · refine ⟨er, ?_⟩
        split
        · rename_i heq
          rw [hlk] at heq
          cases heq
        · rename_i b2 heq
          rw [hlk] at heq
          injection heq with heq
          subst heq
          exact herr
  | .ref (.ref q2), ip, b, hc, hf => by
    have hc2 : containsRef (.ref q2) b = true := by
      simpa [containsRef] using hc
    obtain ⟨er, herr⟩ :=
      expand_fails_of_containsRef flib vt (.ref q2) ip b hc2 hf
    exact ⟨er, by simp only [expand, herr]⟩
  | .ref (.cat a c), ip, b, hc, hf => by
    have hc2 : containsRef (.cat a c) b = true := by
      simpa [containsRef] using hc
    obtain ⟨er, herr⟩ :=
      expand_fails_of_containsRef flib vt (.cat a c) ip b hc2 hf
    exact ⟨er, by simp only [expand, herr]⟩
  | .ref (.func f args), ip, b, hc, hf => by
    have hc2 : containsRef (.func f args) b = true := by
      simpa [containsRef] using hc
    obtain ⟨er, herr⟩ :=
      expand_fails_of_containsRef flib vt (.func f args) ip b hc2 hf
    exact ⟨er, by simp only [expand, herr]⟩
  | .cat a c, ip, b, hc, hf => by
    simp only [containsRef, Bool.or_eq_true] at hc
    rcases hc with hc | hc
    · obtain ⟨er, herr⟩ := expand_fails_of_containsRef flib vt a ip b hc hf
      exact ⟨er, by simp only [expand, herr]⟩
    · cases hea : expand flib vt ip a with
      | error e => exact ⟨e, by simp only [expand, hea]⟩
      | ok sa =>
        obtain ⟨er, herr⟩ := expand_fails_of_containsRef flib vt c ip b hc hf
        exact ⟨er, by simp only [expand, hea, herr]⟩
  | .func f args, ip, b, hc, hf => by
    have hc2 : containsRefArgs args b = true := by
      simpa [containsRef] using hc
    obtain ⟨er, herr⟩ :=
      expandArgs_fails_of_containsRef flib vt args ip b hc2 hf
    exact ⟨er, by simp only [expand, herr]⟩

/-- An argument list referencing a name that is in progress (or whose
re-expansion fails) fails to expand. -/
theorem expandArgs_fails_of_containsRef (flib : FuncLib) (vt : VarTable) :
    ∀ (args : List Value) (ip : List String) (b : String),
      containsRefArgs args b = true →
      (b ∈ ip ∨ VarFails flib vt ip b) →
      ∃ er, expandArgs flib vt ip args = .error er
  | [], ip, b, hc, hf => by
    simp [containsRefArgs] at hc
  | a :: rest, ip, b, hc, hf => by
    simp only [containsRefArgs, Bool.or_eq_true] at hc
    rcases hc with hc | hc
    · obtain ⟨er, herr⟩ := expand_fails_of_containsRef flib vt a ip b hc hf
      exact ⟨er, by simp only [expandArgs, herr]⟩
    · cases hea : expand flib vt ip a with
      | error e => exact ⟨e, by simp only [expandArgs, hea]⟩
      | ok sa =>
        obtain ⟨er, herr⟩ :=
          expandArgs_fails_of_containsRef flib vt rest ip b hc hf
        exact ⟨er, by simp only [expandArgs, hea, herr]⟩

end

/-- Walking a syntactic dependency chain that ends at an in-progress name:
every variable along it is itself in progress or fails to expand. -/
theorem varFails_of_chain (flib : FuncLib) (vt : VarTable) (n m : String)
    (h : Relation.ReflTransGen (DependsOn vt) m n) :
    ∀ ip, n ∈ ip → m ∈ ip ∨ VarFails flib vt ip m := by
  induction h using Relation.ReflTransGen.head_induction_on with
  | refl =>
    intro ip hn
    exact Or.inl hn
  | @head a c hstep htail ih =>
    intro ip hn
    by_cases ha : a ∈ ip
    · exact Or.inl ha
    · right
      obtain ⟨e, o, hlk, hcr⟩ := hstep
      refine ⟨e, o, hlk, ?_⟩
      exact expand_fails_of_containsRef flib vt e (a :: ip) c hcr
        (ih (a :: ip) (List.mem_cons_of_mem _ hn))

/-- C7 (amended): expansion of any Expression against any variable table
and function library terminates, with a text result, the
RecursiveExpansionError, or the UndefinedFunctionError (expand is a total
function, and these two are the only errors it can produce); whenever a
variable transitively references its own in-progress expansion (a cycle of
the deferred dependency relation), reading that variable fails with one of
these two errors rather than looping forever; and over a function-free
variable table that failure is exactly the RecursiveExpansionError. -/
theorem expansion_total_and_self_reference_fails :
    (∀ (flib : FuncLib) (vt : VarTable) (ip : List String) (v : Value),
      (∃ s, expand flib vt ip v = .ok s)
      ∨ expand flib vt ip v = .error .recursiveExpansion
      ∨ expand flib vt ip v = .error .undefinedFunction)
    ∧ (∀ (flib : FuncLib) (vt : VarTable) (n : String),
      Relation.TransGen (DependsOn vt) n n →
      ∃ er, expand flib vt [] (.ref (.lit n)) = .error er
        ∧ (er = .recursiveExpansion ∨ er = .undefinedFunction))
    ∧ (∀ (flib : FuncLib) (vt : VarTable) (n : String),
      funcFreeTable vt = true →
      Relation.TransGen (DependsOn vt) n n →
      expand flib vt [] (.ref (.lit n)) = .error .recursiveExpansion) := by
  have hfail : ∀ (flib : FuncLib) (vt : VarTable) (n : String),
      Relation.TransGen (DependsOn vt) n n →
      ∃ er, expand flib vt [] (.ref (.lit n)) = .error er := by
    intro flib vt n hcyc
    obtain ⟨c, ⟨e, o, hlk, hcr⟩, hchain⟩ :=
      Relation.TransGen.head'_iff.mp hcyc
    obtain ⟨er, herr⟩ := expand_fails_of_containsRef flib vt e [n] c hcr
      (varFails_of_chain flib vt n c hchain [n] (List.mem_cons_self _ _))
    refine ⟨er, ?_⟩
    simp only [expand]
    rw [dif_neg (List.not_mem_nil n)]
    split
    · rename_i heq
      rw [hlk] at heq
      cases heq
    · rename_i b2 heq
      rw [hlk] at heq
      injection heq with heq
      subst heq
      exact herr
  refine ⟨?_, ?_, ?_⟩
  · intro flib vt ip v
    cases hres : expand flib vt ip v with
    | ok s => exact Or.inl ⟨s, rfl⟩
    | error e =>
      rcases expand_error_classified flib vt ip v e hres with he | he
      · subst he
        exact Or.inr (Or.inl rfl)
      · subst he
        exact Or.inr (Or.inr rfl)
  · intro flib vt n hcyc
    obtain ⟨er, herr⟩ := hfail flib vt n hcyc
    exact ⟨er, herr, expand_error_classified flib vt [] _ er herr⟩
  · intro flib vt n hft hcyc
    obtain ⟨er, herr⟩ := hfail flib vt n hcyc
    have hrec := expand_funcFree_error flib vt hft [] (.ref (.lit n))
      (by simp [funcFree]) er herr
    rw [hrec] at herr
    exact herr

/-- C7 counterexample: expansion can also fail with the
UndefinedFunctionError: invoking a function name absent from the function
library makes expansion fail with that error, which is neither a text
result nor the RecursiveExpansionError, so the claim's "terminates, either
with a text result or with this [RecursiveExpansion] error" disjunction is
false as stated. -/
theorem expansion_not_only_recursive_error :
    expand [] [] [] (.func "missing" []) = .error .undefinedFunction
    ∧ ¬ ((∃ s, expand [] [] [] (.func "missing" []) = .ok s)
        ∨ expand [] [] [] (.func "missing" []) = .error .recursiveExpansion) := by
  have h : expand [] [] [] (.func "missing" []) = .error .undefinedFunction := by
    simp [expand, expandArgs, lookupKey]
  refine ⟨h, ?_⟩
  rintro (⟨s, hs⟩ | hs) <;> rw [h] at hs <;> simp at hs

/-- A function-free two-variable cycle: x reads y and y reads x, both
deferred. -/
def cycleTable : VarTable :=
  [("x", ⟨.deferred (.ref (.lit "y")), .file⟩),
   ("y", ⟨.deferred (.ref (.lit "x")), .file⟩)]

/-- C7 witness: in the function-free two-variable cycle x -> y -> x,
reading x (under the empty function library) fails with exactly the
RecursiveExpansionError. -/
theorem expansion_total_and_self_reference_fails_witness :
    expand [] cycleTable [] (.ref (.lit "x")) = .error .recursiveExpansion :=
  expansion_total_and_self_reference_fails.2.2 [] cycleTable "x" (by decide)
    (Relation.TransGen.head
      (show DependsOn cycleTable "x" "y" from
        ⟨.ref (.lit "y"), .file, rfl, rfl⟩)
      (Relation.TransGen.single
        (show DependsOn cycleTable "y" "x" from
          ⟨.ref (.lit "x"), .file, rfl, rfl⟩)))

end Kati
